import Mathlib

/-!
Verification of `scripts/create_release.py`, an ESP32 release-packaging tool.

The script reads a flashing manifest (`flasher_args.json`), detects Secure
Boot (bootloader section absent) and Flash Encryption (`app.encrypted ==
"true"`), mutates the manifest, renders a flash script, and zips the
artifacts.  We embed the manifest transformation, the filename generator,
the zip-entry computation, the project-root search and the control flow of
`main` as executable Lean functions, and prove the specified properties.
-/

/-! ### Python primitives: whitespace, `str.strip`, `re.sub`, `int(s, 16)` -/

/-- Whitespace characters recognised by Python's `str.strip()` and the regex
class `\s` (ASCII range; the claims only involve ASCII inputs). -/
def isPySpace (c : Char) : Bool :=
  c = ' ' || c = '\t' || c = '\n' || c = '\x0d' || c = '\x0b' || c = '\x0c'

/-- Remove leading and trailing whitespace from a character list, as
Python's `str.strip()` does. -/
def stripChars (l : List Char) : List Char :=
  ((l.dropWhile isPySpace).reverse.dropWhile isPySpace).reverse

/-- Model of Python `s.strip()`. -/
def pyStrip (s : String) : String :=
  ⟨stripChars s.data⟩

/-- Model of Python `re.sub(r"[\s]+", "_", ·)` on a character list: every
maximal run of whitespace is replaced by a single underscore. -/
def subWS : List Char → List Char
  | [] => []
  | c :: cs =>
    if isPySpace c then '_' :: subWS (cs.dropWhile isPySpace)
    else c :: subWS cs
termination_by l => l.length
decreasing_by
  · simp only [List.length_cons]
    exact Nat.lt_succ_of_le (List.dropWhile_sublist _).length_le
  · simp

/-- Model of Python `re.sub(r"[\s]+", "_", s)`. -/
def pySubWS (s : String) : String :=
  ⟨subWS s.data⟩

/-- Model of Python `re.sub(r"-dirty$", "", s)`: the regex can only match
the final six characters, so it removes one trailing `-dirty` suffix. -/
def stripDirty (s : String) : String :=
  if "-dirty".data.isSuffixOf s.data then
    ⟨s.data.dropLast.dropLast.dropLast.dropLast.dropLast.dropLast⟩
  else s

/-- Numeric value of a hexadecimal digit, if any. -/
def hexDigitVal (c : Char) : Option Nat :=
  if '0' ≤ c ∧ c ≤ '9' then some (c.toNat - '0'.toNat)
  else if 'a' ≤ c ∧ c ≤ 'f' then some (c.toNat - 'a'.toNat + 10)
  else if 'A' ≤ c ∧ c ≤ 'F' then some (c.toNat - 'A'.toNat + 10)
  else none

/-- Digit run of `int(s, 16)` after the first digit: hexadecimal digits
with single underscores allowed between digits. -/
def parseHexRest (acc : Nat) : List Char → Option Nat
  | [] => some acc
  | '_' :: c :: cs =>
    match hexDigitVal c with
    | some d => parseHexRest (16 * acc + d) cs
    | none => none
  | '_' :: [] => none
  | c :: cs =>
    match hexDigitVal c with
    | some d => parseHexRest (16 * acc + d) cs
    | none => none

/-- Nonempty hexadecimal digit run (must start with a digit). -/
def parseHexCore : List Char → Option Nat
  | [] => none
  | c :: cs =>
    match hexDigitVal c with
    | some d => parseHexRest d cs
    | none => none

/-- Digit part of `int(s, 16)` with the optional `0x`/`0X` radix marker
(an underscore may follow the marker). -/
def parseHexBody (l : List Char) : Option Nat :=
  match l with
  | '0' :: x :: rest =>
    if x = 'x' ∨ x = 'X' then
      match rest with
      | '_' :: r => parseHexCore r
      | _ => parseHexCore rest
    else parseHexCore l
  | _ => parseHexCore l

/-- Model of Python `int(s, 16)`: surrounding whitespace is ignored, an
optional sign precedes an optional `0x` marker and the digits; `none`
models the `ValueError` raised on any other input. -/
def pyIntHex (s : String) : Option Int :=
  match stripChars s.data with
  | '-' :: rest => (parseHexBody rest).map (fun n => -(n : Int))
  | '+' :: rest => (parseHexBody rest).map (fun n => (n : Int))
  | l => (parseHexBody l).map (fun n => (n : Int))

/-! ### The flasher manifest data model

`parse_flasher_args` reads `flasher_args.json` and touches only the keys
`app.encrypted`, `bootloader`, `flash_files`, `write_flash_args` and
`security`; the manifest is embedded as a structure over those keys.
`flash_files` is a JSON object, i.e. an insertion-ordered mapping with
distinct keys, embedded as an association list. -/

/-- The `bootloader` section of the manifest (the fields the script reads
or writes). -/
structure BootloaderSection where
  offset : String
  file : String
  encrypted : String
deriving DecidableEq, Repr

/-- The `security` section: the script writes `secure_boot`, `encryption`
and (after digest generation) `digest_file`. -/
structure SecuritySection where
  secure_boot : Bool
  encryption : Bool
  digest_file : Option String
deriving DecidableEq, Repr

/-- The flasher manifest restricted to the keys the script touches.
`appEncrypted` is `data.get("app", {}).get("encrypted")`. -/
structure Manifest where
  appEncrypted : Option String
  bootloader : Option BootloaderSection
  flash_files : List (String × String)
  write_flash_args : List String
  security : Option SecuritySection
deriving DecidableEq, Repr

/-- Python dict assignment `d[k] = v`: replace the value in place when the
key is present (keeping its position), otherwise append the pair. -/
def dictSet (d : List (String × String)) (k v : String) : List (String × String) :=
  if d.any (fun p => p.1 = k) then
    d.map (fun p => if p.1 = k then (k, v) else p)
  else d ++ [(k, v)]

/-- Sort key of a flash-file entry: `int(offset, 16)`, with an irrelevant
default since sorting is only reached when every key parses. -/
def ffKey (p : String × String) : Int :=
  (pyIntHex p.1).getD 0

/-- Model of `dict(sorted(d.items(), key=lambda x: int(x[0], 16)))`.
Python's `sorted` is a stable sort, as is `List.insertionSort`; `int`
raises `ValueError` when a key is not hexadecimal, modelled as `.error`. -/
def sortFlashFiles (ff : List (String × String)) : Except String (List (String × String)) :=
  if ff.all (fun p => (pyIntHex p.1).isSome) then
    .ok (List.insertionSort (fun a b => ffKey a ≤ ffKey b) ff)
  else
    .error "invalid literal for int() with base 16"

/-- The manifest mutation performed by `parse_flasher_args` before the
final sort, mirroring the source order: Secure Boot is detected as the
absence of a `bootloader` key and Encryption as `app.encrypted == "true"`;
then bootloader injection (with `--force`) or encrypted-flag update,
security flags, and `--encrypt`. -/
def transformCore (data : Manifest) : Manifest :=
  let encryption_required : Bool := data.appEncrypted = some "true"
  let secure_boot_enabled : Bool := data.bootloader.isNone
  let data1 : Manifest :=
    if secure_boot_enabled then
      { data with
        bootloader := some ⟨"0x0", "bootloader/bootloader.bin",
          if encryption_required then "true" else "false"⟩,
        flash_files := dictSet data.flash_files "0x0" "bootloader/bootloader.bin",
        write_flash_args :=
          if data.write_flash_args.contains "--force" then data.write_flash_args
          else "--force" :: data.write_flash_args }
    else
      { data with
        bootloader := data.bootloader.map
          (fun b => { b with encrypted := if encryption_required then "true" else "false" }) }
  let data2 : Manifest :=
    { data1 with
      security := some ⟨secure_boot_enabled, encryption_required,
        (data1.security.map (fun s => s.digest_file)).getD none⟩ }
  if encryption_required then
    { data2 with
      write_flash_args :=
        if data2.write_flash_args.contains "--encrypt" then data2.write_flash_args
        else data2.write_flash_args ++ ["--encrypt"] }
  else data2

/-- Model of `parse_flasher_args` (the pure manifest transformation, after
`flasher_args.json` has been loaded): the mutation steps of
`transformCore` followed by the final sort of `flash_files`, whose
`int(x[0], 16)` key raises on a non-hexadecimal offset. -/
def parse_flasher_args (data : Manifest) : Except String Manifest :=
  let data3 := transformCore data
  match sortFlashFiles data3.flash_files with
  | .ok ff => .ok { data3 with flash_files := ff }
  | .error e => .error e

/-! ### Project descriptor and release filename -/

/-- Project descriptor extracted by `parse_project_description` (defaults
already applied there). -/
structure ProjectInfo where
  project_name : String
  project_version : String
deriving DecidableEq, Repr

/-- Model of `generate_release_filename`.  A custom name is truthy in
Python exactly when it is present and nonempty. -/
def generate_release_filename (info : ProjectInfo) (custom_name : Option String) : String :=
  match custom_name with
  | some c =>
    if c ≠ "" then
      info.project_name ++ "_" ++ pySubWS (pyStrip c) ++ ".zip"
    else
      let cleaned := stripDirty (pyStrip info.project_version)
      let final := if cleaned = "" then "latest" else cleaned
      info.project_name ++ "_" ++ final ++ ".zip"
  | none =>
    let cleaned := stripDirty (pyStrip info.project_version)
    let final := if cleaned = "" then "latest" else cleaned
    info.project_name ++ "_" ++ final ++ ".zip"

/-- Secure-boot flag read by the packager and by `main`:
`flash_data.get('security', {}).get('secure_boot', False)`. -/
def secureFlag (m : Manifest) : Bool :=
  (m.security.map (fun s => s.secure_boot)).getD false

/-- Entry names of the zip archive written by `create_zip_package`, in
write order: the serialized manifest, the flash script, the digest when
secure boot is flagged, and each flash file that exists on disk
(`existsIn` is `os.path.exists` relative to the build directory; missing
files are silently skipped by the source). -/
def create_zip_package_entries (flash_data : Manifest) (existsIn : String → Bool) :
    List String :=
  ["flasher_args.json", "flash.sh"] ++
    (if secureFlag flash_data then ["digest.bin"] else []) ++
    (flash_data.flash_files.map (fun p => p.2)).filter existsIn

/-! ### `find_project_root`

The default `markers=(".git")` is a string, not a tuple, so the loop
iterates over its characters `'.'`, `'g'`, `'i'`, `'t'`.  An absolute path
is a list of components from the root (the root itself is `[]`);
`os.path.dirname` drops the last component.  The filesystem is a pair of
predicates: `isDir p` holds when `p` is an existing directory (so that
`os.path.exists(join(p, "."))` holds), and `present p` when path `p`
exists at all. -/

/-- Abstract filesystem state for `find_project_root`. -/
structure FSState where
  isDir : List String → Bool
  present : List String → Bool

/-- One marker test of the loop body:
`any(os.path.exists(os.path.join(current_dir, marker)) for marker in ".git")`. -/
def markerFound (fs : FSState) (p : List String) : Bool :=
  fs.isDir p || fs.present (p ++ ["g"]) || fs.present (p ++ ["i"]) || fs.present (p ++ ["t"])

/-- The `while current_dir != os.path.dirname(current_dir)` loop of
`find_project_root`; `cwd` is returned when the loop exits at the root. -/
def findRootLoop (fs : FSState) (cwd : List String) : List String → List String
  | [] => cwd
  | h :: t =>
    if markerFound fs (h :: t) then h :: t
    else findRootLoop fs cwd (h :: t).dropLast
termination_by l => l.length
decreasing_by
  simp [List.length_dropLast]

/-- Model of `find_project_root` with the default `markers` value, on an
already absolute starting path. -/
def find_project_root (fs : FSState) (cwd start : List String) : List String :=
  findRootLoop fs cwd start

/-! ### Control flow of `main`

The run environment holds everything `main` reads from the outside world;
the result records the process outcome, whether the temporary directory
was created, and whether it was removed (`shutil.rmtree` is the last
statement of `main` and is not wrapped in `try`/`finally`).  Script
rendering is treated as total since the claims do not depend on the
rendered text; a failure there would skip `rmtree` exactly like the
modelled failures. -/

/-- Outside world of one run of the tool. -/
structure Env where
  buildDirOk : Bool
  flasherArgs : Option Manifest
  projectDesc : Option ProjectInfo
  fileOnDisk : String → Bool
  digestOk : Bool
  customName : Option String

/-- Outcome of one run: process result (with the zip entry list on
success), and the temporary-directory bookkeeping. -/
structure RunResult where
  result : Except String (List String)
  tempCreated : Bool
  tempRemoved : Bool

/-- Model of `generate_secure_boot_digest`: records `digest.bin` in the
security section, or fails (`RuntimeError`) when the key digest call
fails. -/
def generate_secure_boot_digest (ok : Bool) (fd : Manifest) : Except String Manifest :=
  if ok then
    .ok { fd with security := fd.security.map (fun s => { s with digest_file := some "digest.bin" }) }
  else
    .error "Failed to generate secure boot digest"

/-- Model of `main`: the sequence of fallible steps, with the temporary
directory created after the build-directory check and removed only by the
final `shutil.rmtree`, which an exception skips. -/
def mainRun (env : Env) : RunResult :=
  if ¬ env.buildDirOk then
    ⟨.error "Build directory not found", false, false⟩
  else
    match env.flasherArgs with
    | none => ⟨.error "flasher_args.json not found", true, false⟩
    | some raw =>
      match parse_flasher_args raw with
      | .error e => ⟨.error e, true, false⟩
      | .ok fd =>
        match env.projectDesc with
        | none => ⟨.error "project_description.json not found", true, false⟩
        | some info =>
          let _release_name := generate_release_filename info env.customName
          if secureFlag fd then
            match generate_secure_boot_digest env.digestOk fd with
            | .error e => ⟨.error e, true, false⟩
            | .ok fd2 =>
              ⟨.ok (create_zip_package_entries fd2 env.fileOnDisk), true, true⟩
          else
            ⟨.ok (create_zip_package_entries fd env.fileOnDisk), true, true⟩

/-! ### Specification-side sanitizer

The spec describes the `--name` sanitization as: strip surrounding
whitespace, then replace every maximal run of internal whitespace by a
single underscore.  An independent formulation of that sentence splits the
name into whitespace-separated words and joins them with underscores; it
is proved equivalent to the source's `re.sub(r"[\s]+", "_", name.strip())`
below. -/

/-- Whitespace-separated words of a character list. -/
def words : List Char → List (List Char)
  | [] => []
  | c :: cs =>
    if isPySpace c then words cs
    else (c :: cs.takeWhile (fun x => !isPySpace x)) :: words (cs.dropWhile (fun x => !isPySpace x))
termination_by l => l.length
decreasing_by
  · simp
  · simp only [List.length_cons]
    exact Nat.lt_succ_of_le (List.dropWhile_sublist _).length_le

/-- Sanitizer as the specification words it: the whitespace-separated
words of the custom name, joined by single underscores (splitting into
words both removes the surrounding whitespace and collapses each internal
run). -/
def specSanitize (s : String) : String :=
  ⟨List.intercalate ['_'] (words s.data)⟩

/-! ### Helper lemmas: whitespace handling -/

/-- Right-strip only (trailing whitespace removal). -/
def stripR (l : List Char) : List Char :=
  (l.reverse.dropWhile isPySpace).reverse

theorem stripChars_eq_stripR (l : List Char) :
    stripChars l = stripR (l.dropWhile isPySpace) := rfl

theorem stripR_eq_nil_iff (l : List Char) :
    stripR l = [] ↔ ∀ c ∈ l, isPySpace c = true := by
  unfold stripR
  rw [List.reverse_eq_nil_iff, List.dropWhile_eq_nil_iff]
  constructor
  · intro h c hc
    exact h c (List.mem_reverse.2 hc)
  · intro h c hc
    exact h c (List.mem_reverse.1 hc)

theorem stripR_append_of_allspace (a b : List Char) (hb : ∀ c ∈ b, isPySpace c = true) :
    stripR (a ++ b) = stripR a := by
  unfold stripR
  rw [List.reverse_append, List.dropWhile_append]
  have hbnil : b.reverse.dropWhile isPySpace = [] :=
    List.dropWhile_eq_nil_iff.2 (fun c hc => hb c (List.mem_reverse.1 hc))
  simp [hbnil]

theorem stripR_append_of_ne_nil (a b : List Char) (hb : stripR b ≠ []) :
    stripR (a ++ b) = a ++ stripR b := by
  unfold stripR at *
  rw [List.reverse_append, List.dropWhile_append]
  have hne : (b.reverse.dropWhile isPySpace).isEmpty = false := by
    cases hx : (b.reverse.dropWhile isPySpace).isEmpty
    · rfl
    · exact absurd (by simp [List.isEmpty_iff.1 hx]) hb
  simp [hne, List.reverse_append]

theorem stripR_allnonspace (l : List Char) (h : ∀ c ∈ l, isPySpace c = false) :
    stripR l = l := by
  unfold stripR
  have : l.reverse.dropWhile isPySpace = l.reverse := by
    cases hr : l.reverse with
    | nil => rfl
    | cons x xs =>
      rw [List.dropWhile_cons]
      have hx : x ∈ l := List.mem_reverse.1 (hr ▸ List.mem_cons_self x xs)
      simp [h x hx]
  rw [this, List.reverse_reverse]

theorem stripR_cons_nonspace (c : Char) (t : List Char) (hc : isPySpace c = false) :
    stripR (c :: t) = c :: stripR t := by
  by_cases ht : stripR t = []
  · have hall : ∀ x ∈ t, isPySpace x = true := (stripR_eq_nil_iff t).1 ht
    have h1 : stripR ([c] ++ t) = stripR [c] := stripR_append_of_allspace [c] t hall
    have h2 : stripR [c] = [c] := stripR_allnonspace [c] (by simp [hc])
    simpa [ht, h2] using h1
  · have := stripR_append_of_ne_nil [c] t ht
    simpa using this

theorem dropWhile_head_false {p : Char → Bool} :
    ∀ (l : List Char) (x : Char) (xs : List Char), l.dropWhile p = x :: xs → p x = false
  | [], x, xs, h => by simp at h
  | c :: cs, x, xs, h => by
    rw [List.dropWhile_cons] at h
    by_cases hc : p c = true
    · simp [hc] at h
      exact dropWhile_head_false cs x xs h
    · simp [hc] at h
      simp [h.1 ▸ (Bool.not_eq_true (p c)).mp hc]

theorem subWS_cons_nonspace (c : Char) (cs : List Char) (hc : isPySpace c = false) :
    subWS (c :: cs) = c :: subWS cs := by
  simp only [subWS]
  simp [hc]

theorem subWS_cons_space (c : Char) (cs : List Char) (hc : isPySpace c = true) :
    subWS (c :: cs) = '_' :: subWS (cs.dropWhile isPySpace) := by
  simp only [subWS]
  simp [hc]

theorem subWS_append_nonspace (a b : List Char) (h : ∀ c ∈ a, isPySpace c = false) :
    subWS (a ++ b) = a ++ subWS b := by
  induction a with
  | nil => simp
  | cons c cs ih =>
    rw [List.cons_append, subWS_cons_nonspace c _ (h c (List.mem_cons_self c cs)),
      ih (fun x hx => h x (List.mem_cons_of_mem c hx))]
    rfl

theorem subWS_allnonspace (a : List Char) (h : ∀ c ∈ a, isPySpace c = false) :
    subWS a = a := by
  have := subWS_append_nonspace a [] h
  simpa [subWS] using this

theorem subWS_spacerun (r x : List Char) (hr : r ≠ [])
    (hrsp : ∀ c ∈ r, isPySpace c = true)
    (hx : x = [] ∨ ∃ d t, x = d :: t ∧ isPySpace d = false) :
    subWS (r ++ x) = '_' :: subWS x := by
  cases r with
  | nil => exact absurd rfl hr
  | cons s rest =>
    rw [List.cons_append, subWS_cons_space s _ (hrsp s (List.mem_cons_self s rest))]
    have hrest : (rest.dropWhile isPySpace).isEmpty = true := by
      simp [List.dropWhile_eq_nil_iff]
      intro c hc
      exact hrsp c (List.mem_cons_of_mem s hc)
    have hxd : x.dropWhile isPySpace = x := by
      rcases hx with hx | ⟨d, t, hdt, hd⟩
      · simp [hx]
      · rw [hdt, List.dropWhile_cons]
        simp [hd]
    rw [List.dropWhile_append, hrest]
    simp [hxd]

theorem words_cons_space (c : Char) (cs : List Char) (hc : isPySpace c = true) :
    words (c :: cs) = words cs := by
  simp only [words]
  simp [hc]

theorem words_cons_nonspace (c : Char) (cs : List Char) (hc : isPySpace c = false) :
    words (c :: cs) =
      (c :: cs.takeWhile (fun x => !isPySpace x)) ::
        words (cs.dropWhile (fun x => !isPySpace x)) := by
  simp only [words]
  simp [hc]

theorem words_allspace (l : List Char) (h : ∀ c ∈ l, isPySpace c = true) :
    words l = [] := by
  induction l with
  | nil => simp [words]
  | cons c cs ih =>
    rw [words_cons_space c cs (h c (List.mem_cons_self c cs))]
    exact ih (fun x hx => h x (List.mem_cons_of_mem c hx))

theorem words_dropWhile (l : List Char) : words l = words (l.dropWhile isPySpace) := by
  induction l with
  | nil => simp
  | cons c cs ih =>
    by_cases hc : isPySpace c = true
    · rw [words_cons_space c cs hc, List.dropWhile_cons]
      simp only [hc, if_true]
      exact ih
    · rw [List.dropWhile_cons]
      simp [hc]

theorem intercalate_singleton_list (s x : List Char) :
    List.intercalate s [x] = x := by
  simp [List.intercalate]

theorem intercalate_cons_cons (s x y : List Char) (ys : List (List Char)) :
    List.intercalate s (x :: y :: ys) = x ++ s ++ List.intercalate s (y :: ys) := by
  simp [List.intercalate, List.intersperse]

theorem subWS_stripR_eq_intercalate_words :
    ∀ (n : Nat) (l : List Char), l.length ≤ n →
      (∀ c cs, l = c :: cs → isPySpace c = false) →
      subWS (stripR l) = List.intercalate ['_'] (words l) := by
  intro n
  induction n with
  | zero =>
    intro l hl _
    have : l = [] := List.length_eq_zero.1 (Nat.le_zero.1 hl)
    subst this
    simp [stripR, subWS, words, List.intercalate]
  | succ n ih =>
    intro l hl hhead
    cases l with
    | nil => simp [stripR, subWS, words, List.intercalate]
    | cons c cs =>
      have hc : isPySpace c = false := hhead c cs rfl
      set w := cs.takeWhile (fun x => !isPySpace x) with hw_def
      set r := cs.dropWhile (fun x => !isPySpace x) with hr_def
      have hcs : w ++ r = cs := List.takeWhile_append_dropWhile _ _
      have hl_split : c :: cs = (c :: w) ++ r := by rw [List.cons_append, hcs]
      have hw_nonspace : ∀ x ∈ c :: w, isPySpace x = false := by
        intro x hx
        rcases List.mem_cons.1 hx with hx | hx
        · exact hx ▸ hc
        · have := List.mem_takeWhile_imp hx
          simpa using this
      have hwords : words (c :: cs) = (c :: w) :: words r := words_cons_nonspace c cs hc
      by_cases hr0 : stripR r = []
      · have hrall : ∀ x ∈ r, isPySpace x = true := (stripR_eq_nil_iff r).1 hr0
        have h1 : stripR (c :: cs) = c :: w := by
          rw [hl_split, stripR_append_of_allspace _ _ hrall,
            stripR_allnonspace _ hw_nonspace]
        rw [h1, subWS_allnonspace _ hw_nonspace, hwords, words_allspace r hrall,
          intercalate_singleton_list]
      · have hr_ne : r ≠ [] := by
          intro h
          exact hr0 (by simp [h, stripR])
        set rsp := r.takeWhile isPySpace with hrsp_def
        set rp := r.dropWhile isPySpace with hrpdef
        have hrdec : rsp ++ rp = r := List.takeWhile_append_dropWhile _ _
        have hrsp_all : ∀ x ∈ rsp, isPySpace x = true := fun x hx => List.mem_takeWhile_imp hx
        have hrsp_ne : rsp ≠ [] := by
          cases hrc : r with
          | nil => exact absurd hrc hr_ne
          | cons d t =>
            have hd : (fun x => !isPySpace x) d = false := dropWhile_head_false cs d t (hr_def ▸ hrc)
            have hd2 : isPySpace d = true := by simpa using hd
            rw [hrsp_def, hrc, List.takeWhile_cons]
            simp [hd2]
        cases hrpc : rp with
        | nil =>
          exfalso
          have : ∀ x ∈ r, isPySpace x = true := by
            intro x hx
            rw [← hrdec, hrpc, List.append_nil] at hx
            exact hrsp_all x hx
          exact hr0 ((stripR_eq_nil_iff r).2 this)
        | cons e u =>
          have he : isPySpace e = false := dropWhile_head_false r e u (hrpdef ▸ hrpc)
          have hstrip_rp : stripR rp = e :: stripR u := by
            rw [hrpc]
            exact stripR_cons_nonspace e u he
          have hstrip_rp_ne : stripR rp ≠ [] := by
            rw [hstrip_rp]
            simp
          have hstrip_r : stripR r = rsp ++ stripR rp := by
            rw [← hrdec]
            exact stripR_append_of_ne_nil rsp rp hstrip_rp_ne
          have hstrip_r_ne : stripR r ≠ [] := by
            rw [hstrip_r]
            intro h
            rcases List.append_eq_nil.1 h with ⟨h1, _⟩
            exact hrsp_ne h1
          have h1 : stripR (c :: cs) = (c :: w) ++ (rsp ++ stripR rp) := by
            rw [hl_split, stripR_append_of_ne_nil _ _ hstrip_r_ne, hstrip_r]
          have h2 : subWS (stripR (c :: cs)) = (c :: w) ++ '_' :: subWS (stripR rp) := by
            rw [h1, subWS_append_nonspace _ _ hw_nonspace]
            congr 1
            exact subWS_spacerun rsp (stripR rp) hrsp_ne hrsp_all
              (Or.inr ⟨e, stripR u, hstrip_rp, he⟩)
          have hlen : rp.length ≤ n := by
            have l1 : rp.length ≤ r.length := (List.dropWhile_sublist _).length_le
            have l2 : r.length ≤ cs.length := by
              rw [hr_def]
              exact (List.dropWhile_sublist _).length_le
            have l3 : cs.length + 1 ≤ n + 1 := by simpa using hl
            omega
          have hhead2 : ∀ d ds, rp = d :: ds → isPySpace d = false := by
            intro d ds hdds
            rw [hrpc] at hdds
            cases hdds
            exact he
          have hih := ih rp hlen hhead2
          have hwords_r : words r = words rp := by
            rw [words_dropWhile r, ← hrpdef]
          have hwords_rp_ne : words rp ≠ [] := by
            rw [hrpc, words_cons_nonspace e u he]
            simp
          rw [h2, hih, hwords, hwords_r]
          cases hwc : words rp with
          | nil => exact absurd hwc hwords_rp_ne
          | cons y ys =>
            rw [intercalate_cons_cons]
            simp

/-- The source sanitization (`re.sub(r"[\s]+", "_", name.strip())`) agrees
with the specification-side sanitizer on every string. -/
theorem pySubWS_pyStrip_eq_specSanitize (s : String) :
    pySubWS (pyStrip s) = specSanitize s := by
  unfold pySubWS pyStrip specSanitize
  congr 1
  rw [stripChars_eq_stripR]
  have hhead : ∀ c cs, s.data.dropWhile isPySpace = c :: cs → isPySpace c = false := by
    intro c cs h
    exact dropWhile_head_false s.data c cs h
  rw [subWS_stripR_eq_intercalate_words (s.data.dropWhile isPySpace).length _ le_rfl hhead,
    ← words_dropWhile]

/-! ### Helper lemmas: the manifest transformation -/

/-- The `--force` update of the secure-boot branch, as a standalone
function (proved below to agree with `transformCore`). -/
def forceStep (w : List String) : List String :=
  if w.contains "--force" then w else "--force" :: w

/-- The `--encrypt` update of the encryption branch. -/
def encryptStep (w : List String) : List String :=
  if w.contains "--encrypt" then w else w ++ ["--encrypt"]

theorem tc_write_flash_args (m : Manifest) :
    (transformCore m).write_flash_args =
      if m.appEncrypted = some "true" then
        encryptStep (if m.bootloader.isNone then forceStep m.write_flash_args
          else m.write_flash_args)
      else
        (if m.bootloader.isNone then forceStep m.write_flash_args
          else m.write_flash_args) := by
  cases hb : m.bootloader <;> by_cases he : m.appEncrypted = some "true" <;>
    simp [transformCore, forceStep, encryptStep, hb, he]

theorem tc_flash_files (m : Manifest) :
    (transformCore m).flash_files =
      if m.bootloader.isNone then dictSet m.flash_files "0x0" "bootloader/bootloader.bin"
      else m.flash_files := by
  cases hb : m.bootloader <;> by_cases he : m.appEncrypted = some "true" <;>
    simp [transformCore, hb, he]

theorem tc_security (m : Manifest) :
    (transformCore m).security =
      some ⟨m.bootloader.isNone, decide (m.appEncrypted = some "true"),
        (m.security.map (fun s => s.digest_file)).getD none⟩ := by
  cases hb : m.bootloader <;> by_cases he : m.appEncrypted = some "true" <;>
    simp [transformCore, hb, he]

theorem tc_bootloader_none (m : Manifest) (hb : m.bootloader = none) :
    (transformCore m).bootloader =
      some ⟨"0x0", "bootloader/bootloader.bin",
        if m.appEncrypted = some "true" then "true" else "false"⟩ := by
  by_cases he : m.appEncrypted = some "true" <;> simp [transformCore, hb, he]

theorem tc_bootloader_some (m : Manifest) (b : BootloaderSection) (hb : m.bootloader = some b) :
    (transformCore m).bootloader =
      some { b with encrypted := if m.appEncrypted = some "true" then "true" else "false" } := by
  by_cases he : m.appEncrypted = some "true" <;> simp [transformCore, hb, he]

theorem parse_ok_elim (m out : Manifest) (h : parse_flasher_args m = .ok out) :
    ∃ ff, sortFlashFiles (transformCore m).flash_files = .ok ff ∧
      out = { transformCore m with flash_files := ff } := by
  have hmatch : (match sortFlashFiles (transformCore m).flash_files with
      | .ok ff => Except.ok { transformCore m with flash_files := ff }
      | .error e => (Except.error e : Except String Manifest)) = Except.ok out := h
  cases hs : sortFlashFiles (transformCore m).flash_files with
  | ok ff =>
    rw [hs] at hmatch
    cases hmatch
    exact ⟨ff, rfl, rfl⟩
  | error e =>
    rw [hs] at hmatch
    cases hmatch

theorem dictSet_self_mem (d : List (String × String)) (k v : String) :
    (k, v) ∈ dictSet d k v := by
  unfold dictSet
  split
  · rename_i h
    rw [List.any_eq_true] at h
    obtain ⟨p, hp, hpk⟩ := h
    rw [decide_eq_true_eq] at hpk
    exact List.mem_map.2 ⟨p, hp, by simp [hpk]⟩
  · simp

theorem dictSet_mem_elim (d : List (String × String)) (k v : String)
    (q : String × String) (hq : q ∈ dictSet d k v) :
    q = (k, v) ∨ (q ∈ d ∧ q.1 ≠ k) := by
  unfold dictSet at hq
  by_cases hany : (d.any fun p => decide (p.1 = k)) = true
  · rw [if_pos hany] at hq
    obtain ⟨p, hp, hpq⟩ := List.mem_map.1 hq
    by_cases hk : p.1 = k
    · left
      rw [if_pos hk] at hpq
      exact hpq.symm
    · right
      rw [if_neg hk] at hpq
      exact ⟨hpq ▸ hp, hpq ▸ hk⟩
  · rw [if_neg hany] at hq
    rcases List.mem_append.1 hq with hq | hq
    · refine Or.inr ⟨hq, ?_⟩
      intro hk
      apply hany
      rw [List.any_eq_true]
      exact ⟨q, hq, by simp [hk]⟩
    · left
      simpa using hq

instance : IsTotal (String × String) (fun a b => ffKey a ≤ ffKey b) :=
  ⟨fun a b => Int.le_total (ffKey a) (ffKey b)⟩

instance : IsTrans (String × String) (fun a b => ffKey a ≤ ffKey b) :=
  ⟨fun _ _ _ h1 h2 => le_trans h1 h2⟩

theorem sortFF_ok_perm (ff l : List (String × String)) (h : sortFlashFiles ff = .ok l) :
    l.Perm ff := by
  unfold sortFlashFiles at h
  split at h
  · cases h
    exact List.perm_insertionSort _ ff
  · cases h

theorem sortFF_ok_sorted (ff l : List (String × String)) (h : sortFlashFiles ff = .ok l) :
    l.Pairwise (fun a b => ffKey a ≤ ffKey b) := by
  unfold sortFlashFiles at h
  split at h
  · cases h
    exact List.sorted_insertionSort _ ff
  · cases h

theorem stripDirty_append_dirty (w : String) : stripDirty (w ++ "-dirty") = w := by
  unfold stripDirty
  have hdata : (w ++ "-dirty").data = w.data ++ ['-', 'd', 'i', 'r', 't', 'y'] := by
    rw [String.data_append]
  have hsuf : "-dirty".data.isSuffixOf (w ++ "-dirty").data = true := by
    rw [List.isSuffixOf_iff_suffix, hdata]
    exact ⟨w.data, rfl⟩
  rw [if_pos hsuf, hdata]
  have hdrop : ∀ (a : List Char),
      ((((((a ++ ['-', 'd', 'i', 'r', 't', 'y']).dropLast).dropLast).dropLast).dropLast).dropLast).dropLast = a := by
    intro a
    simp [List.dropLast_append_of_ne_nil]
  rw [hdrop]

theorem forceStep_count_encrypt (w : List String) :
    (forceStep w).count "--encrypt" = w.count "--encrypt" := by
  unfold forceStep
  split
  · rfl
  · exact List.count_cons_of_ne (by decide) w

theorem encryptStep_count_force (w : List String) :
    (encryptStep w).count "--force" = w.count "--force" := by
  unfold encryptStep
  split
  · rfl
  · rw [List.count_append]
    simp [List.count_singleton]

theorem encryptStep_count_encrypt (w : List String) :
    (encryptStep w).count "--encrypt" =
      if "--encrypt" ∈ w then w.count "--encrypt" else w.count "--encrypt" + 1 := by
  unfold encryptStep
  by_cases hm : "--encrypt" ∈ w
  · rw [if_pos (List.elem_eq_true_of_mem hm), if_pos hm]
  · have hc : ¬ w.contains "--encrypt" = true := fun hc => hm (List.mem_of_elem_eq_true hc)
    rw [if_neg hc, if_neg hm, List.count_append]
    simp [List.count_singleton]

theorem encryptStep_mem_encrypt (w : List String) : "--encrypt" ∈ encryptStep w := by
  unfold encryptStep
  split
  · exact List.mem_of_elem_eq_true (by assumption)
  · exact List.mem_append_right w (List.mem_singleton.2 rfl)

theorem encryptStep_mem_of_mem (a : String) (w : List String) (h : a ∈ w) :
    a ∈ encryptStep w := by
  unfold encryptStep
  split
  · exact h
  · exact List.mem_append_left _ h

theorem forceStep_mem_force (w : List String) : "--force" ∈ forceStep w := by
  unfold forceStep
  split
  · exact List.mem_of_elem_eq_true (by assumption)
  · exact List.mem_cons_self _ _

theorem forceStep_count_force (w : List String) :
    (forceStep w).count "--force" =
      if "--force" ∈ w then w.count "--force" else w.count "--force" + 1 := by
  unfold forceStep
  by_cases hm : "--force" ∈ w
  · rw [if_pos (List.elem_eq_true_of_mem hm), if_pos hm]
  · have hc : ¬ w.contains "--force" = true := fun hc => hm (List.mem_of_elem_eq_true hc)
    rw [if_neg hc, if_neg hm, List.count_cons_self]

/-! ### Claims -/

/-- C1: for every input manifest without a `bootloader` key,
`parse_flasher_args` returns a manifest with a bootloader entry at offset
`0x0` (both as the `bootloader` section and as the `0x0` entry of
`flash_files`) and with `security.secure_boot` true; with a `bootloader`
key present, `security.secure_boot` is false. -/
theorem claim1_secure_boot_detection (m out : Manifest)
    (h : parse_flasher_args m = .ok out) :
    (m.bootloader = none →
      (∃ b, out.bootloader = some b ∧ b.offset = "0x0" ∧
        b.file = "bootloader/bootloader.bin") ∧
      ("0x0", "bootloader/bootloader.bin") ∈ out.flash_files ∧
      (∃ s, out.security = some s ∧ s.secure_boot = true)) ∧
    (∀ b0, m.bootloader = some b0 →
      ∃ s, out.security = some s ∧ s.secure_boot = false) := by
  obtain ⟨ff, hsort, hout⟩ := parse_ok_elim m out h
  subst hout
  dsimp only
  constructor
  · intro hb
    refine ⟨⟨_, tc_bootloader_none m hb, rfl, rfl⟩, ?_, ⟨_, tc_security m, by simp [hb]⟩⟩
    have hperm := sortFF_ok_perm _ _ hsort
    have hmem : ("0x0", "bootloader/bootloader.bin") ∈ (transformCore m).flash_files := by
      rw [tc_flash_files]
      simp only [hb, Option.isNone_none, if_true]
      exact dictSet_self_mem _ _ _
    exact hperm.mem_iff.2 hmem
  · intro b0 hb
    exact ⟨_, tc_security m, by simp [hb]⟩

/-- C1 witness: a concrete secure-boot manifest run through the theorem. -/
theorem claim1_secure_boot_detection_instance :
    parse_flasher_args ⟨none, none, [], [], none⟩ =
      .ok ⟨none, some ⟨"0x0", "bootloader/bootloader.bin", "false"⟩,
        [("0x0", "bootloader/bootloader.bin")], ["--force"],
        some ⟨true, false, none⟩⟩ ∧
    (((⟨none, none, [], [], none⟩ : Manifest).bootloader = none →
      (∃ b, (⟨none, some ⟨"0x0", "bootloader/bootloader.bin", "false"⟩,
        [("0x0", "bootloader/bootloader.bin")], ["--force"],
        some ⟨true, false, none⟩⟩ : Manifest).bootloader = some b ∧ b.offset = "0x0" ∧
        b.file = "bootloader/bootloader.bin") ∧
      ("0x0", "bootloader/bootloader.bin") ∈
        (⟨none, some ⟨"0x0", "bootloader/bootloader.bin", "false"⟩,
        [("0x0", "bootloader/bootloader.bin")], ["--force"],
        some ⟨true, false, none⟩⟩ : Manifest).flash_files ∧
      (∃ s, (⟨none, some ⟨"0x0", "bootloader/bootloader.bin", "false"⟩,
        [("0x0", "bootloader/bootloader.bin")], ["--force"],
        some ⟨true, false, none⟩⟩ : Manifest).security = some s ∧ s.secure_boot = true)) ∧
    (∀ b0, (⟨none, none, [], [], none⟩ : Manifest).bootloader = some b0 →
      ∃ s, (⟨none, some ⟨"0x0", "bootloader/bootloader.bin", "false"⟩,
        [("0x0", "bootloader/bootloader.bin")], ["--force"],
        some ⟨true, false, none⟩⟩ : Manifest).security = some s ∧ s.secure_boot = false)) :=
  ⟨rfl, claim1_secure_boot_detection _ _ rfl⟩

/-- C2 counterexample: a manifest with `app.encrypted = "true"` whose
input `write_flash_args` already holds `--encrypt` twice is returned with
`--encrypt` twice, not exactly once (the source only appends when the flag
is absent, it never deduplicates). -/
theorem claim2_counterexample :
    parse_flasher_args ⟨some "true", some ⟨"0x0", "bl", "false"⟩, [],
        ["--encrypt", "--encrypt"], none⟩ =
      .ok ⟨some "true", some ⟨"0x0", "bl", "true"⟩, [],
        ["--encrypt", "--encrypt"], some ⟨false, true, none⟩⟩ ∧
    (["--encrypt", "--encrypt"].count "--encrypt" ≠ 1) :=
  ⟨rfl, by decide⟩

/-- C2 (amended): with `app.encrypted = "true"` the returned
`write_flash_args` holds `--encrypt` at least once, and exactly once
whenever the input held it at most once; otherwise the number of
`--encrypt` occurrences is unchanged (none is added). -/
theorem claim2_encrypt_flag (m out : Manifest)
    (h : parse_flasher_args m = .ok out) :
    (m.appEncrypted = some "true" →
      1 ≤ out.write_flash_args.count "--encrypt" ∧
      (m.write_flash_args.count "--encrypt" ≤ 1 →
        out.write_flash_args.count "--encrypt" = 1)) ∧
    (m.appEncrypted ≠ some "true" →
      out.write_flash_args.count "--encrypt" =
        m.write_flash_args.count "--encrypt") := by
  obtain ⟨ff, hsort, hout⟩ := parse_ok_elim m out h
  subst hout
  dsimp only
  rw [tc_write_flash_args]
  set W := (if m.bootloader.isNone then forceStep m.write_flash_args
      else m.write_flash_args) with hWdef
  have hW : W.count "--encrypt" = m.write_flash_args.count "--encrypt" := by
    rw [hWdef]
    split
    · exact forceStep_count_encrypt _
    · rfl
  constructor
  · intro he
    rw [if_pos he, encryptStep_count_encrypt]
    by_cases hm : "--encrypt" ∈ W
    · have h1 : 0 < W.count "--encrypt" := List.count_pos_iff.2 hm
      rw [if_pos hm]
      exact ⟨h1, fun hle => le_antisymm (by rw [hW]; exact hle) h1⟩
    · have h0 : W.count "--encrypt" = 0 := List.count_eq_zero.2 hm
      rw [if_neg hm, h0]
      exact ⟨by omega, fun _ => by omega⟩
  · intro he
    rw [if_neg he]
    exact hW

/-- C2 witness: a concrete encrypted manifest run through the theorem. -/
theorem claim2_encrypt_flag_instance :
    parse_flasher_args ⟨some "true", some ⟨"0x0", "b.bin", "false"⟩, [], [], none⟩ =
      .ok ⟨some "true", some ⟨"0x0", "b.bin", "true"⟩, [], ["--encrypt"],
        some ⟨false, true, none⟩⟩ ∧
    (((⟨some "true", some ⟨"0x0", "b.bin", "false"⟩, [], [], none⟩ : Manifest).appEncrypted =
          some "true" →
        1 ≤ (⟨some "true", some ⟨"0x0", "b.bin", "true"⟩, [], ["--encrypt"],
          some ⟨false, true, none⟩⟩ : Manifest).write_flash_args.count "--encrypt" ∧
        ((⟨some "true", some ⟨"0x0", "b.bin", "false"⟩, [], [], none⟩ :
            Manifest).write_flash_args.count "--encrypt" ≤ 1 →
          (⟨some "true", some ⟨"0x0", "b.bin", "true"⟩, [], ["--encrypt"],
            some ⟨false, true, none⟩⟩ : Manifest).write_flash_args.count "--encrypt" = 1)) ∧
      ((⟨some "true", some ⟨"0x0", "b.bin", "false"⟩, [], [], none⟩ : Manifest).appEncrypted ≠
          some "true" →
        (⟨some "true", some ⟨"0x0", "b.bin", "true"⟩, [], ["--encrypt"],
          some ⟨false, true, none⟩⟩ : Manifest).write_flash_args.count "--encrypt" =
          (⟨some "true", some ⟨"0x0", "b.bin", "false"⟩, [], [], none⟩ :
            Manifest).write_flash_args.count "--encrypt")) :=
  ⟨rfl, claim2_encrypt_flag _ _ rfl⟩

/-- C6: for every manifest without a `bootloader` key, the returned
`write_flash_args` contains `--force` (inserted exactly once when it was
absent, occurrence count unchanged when already present); with a
`bootloader` key present, the list is unchanged up to the possible
`--encrypt` append of the encryption rule. -/
theorem claim6_force_flag (m out : Manifest)
    (h : parse_flasher_args m = .ok out) :
    (m.bootloader = none →
      "--force" ∈ out.write_flash_args ∧
      ("--force" ∈ m.write_flash_args →
        out.write_flash_args.count "--force" = m.write_flash_args.count "--force") ∧
      ("--force" ∉ m.write_flash_args →
        out.write_flash_args.count "--force" =
          m.write_flash_args.count "--force" + 1)) ∧
    (∀ b0, m.bootloader = some b0 →
      out.write_flash_args = m.write_flash_args ∨
      out.write_flash_args = m.write_flash_args ++ ["--encrypt"]) := by
  obtain ⟨ff, hsort, hout⟩ := parse_ok_elim m out h
  subst hout
  dsimp only
  rw [tc_write_flash_args]
  constructor
  · intro hb
    have hbn : m.bootloader.isNone = true := by simp [hb]
    simp only [hbn, if_true]
    have hcnt : ∀ w : List String,
        (if m.appEncrypted = some "true" then encryptStep w else w).count "--force" =
          w.count "--force" := by
      intro w
      split
      · exact encryptStep_count_force w
      · rfl
    have hmem : ∀ w : List String, "--force" ∈ w →
        "--force" ∈ (if m.appEncrypted = some "true" then encryptStep w else w) := by
      intro w hw
      split
      · exact encryptStep_mem_of_mem _ _ hw
      · exact hw
    refine ⟨hmem _ (forceStep_mem_force _), ?_, ?_⟩
    · intro hf
      rw [hcnt, forceStep_count_force, if_pos hf]
    · intro hf
      rw [hcnt, forceStep_count_force, if_neg hf]
  · intro b0 hb
    have hif : (if m.bootloader.isNone then forceStep m.write_flash_args
        else m.write_flash_args) = m.write_flash_args := by
      simp [hb]
    rw [hif]
    split
    · unfold encryptStep
      split
      · exact Or.inl rfl
      · exact Or.inr rfl
    · exact Or.inl rfl

/-- C6 witness: a concrete secure-boot manifest run through the theorem. -/
theorem claim6_force_flag_instance :
    parse_flasher_args ⟨none, none, [], ["x"], none⟩ =
      .ok ⟨none, some ⟨"0x0", "bootloader/bootloader.bin", "false"⟩,
        [("0x0", "bootloader/bootloader.bin")], ["--force", "x"],
        some ⟨true, false, none⟩⟩ ∧
    (((⟨none, none, [], ["x"], none⟩ : Manifest).bootloader = none →
      "--force" ∈ (["--force", "x"] : List String) ∧
      ("--force" ∈ (["x"] : List String) →
        (["--force", "x"] : List String).count "--force" =
          (["x"] : List String).count "--force") ∧
      ("--force" ∉ (["x"] : List String) →
        (["--force", "x"] : List String).count "--force" =
          (["x"] : List String).count "--force" + 1)) ∧
    (∀ b0, (⟨none, none, [], ["x"], none⟩ : Manifest).bootloader = some b0 →
      (["--force", "x"] : List String) = ["x"] ∨
      (["--force", "x"] : List String) = ["x"] ++ ["--encrypt"])) :=
  ⟨rfl, claim6_force_flag ⟨none, none, [], ["x"], none⟩
    ⟨none, some ⟨"0x0", "bootloader/bootloader.bin", "false"⟩,
      [("0x0", "bootloader/bootloader.bin")], ["--force", "x"],
      some ⟨true, false, none⟩⟩ rfl⟩

/-- C10: every accepted manifest is returned with a `security` section
holding boolean `secure_boot` and `encryption` flags matching the two
detections, and with a `bootloader` section whose `encrypted` field is
`"true"` exactly when encryption was detected. -/
theorem claim10_security_invariant (m out : Manifest)
    (h : parse_flasher_args m = .ok out) :
    (∃ s, out.security = some s ∧ s.secure_boot = m.bootloader.isNone ∧
      (s.encryption = true ↔ m.appEncrypted = some "true")) ∧
    (∃ b, out.bootloader = some b ∧
      (b.encrypted = "true" ↔ m.appEncrypted = some "true")) := by
  obtain ⟨ff, hsort, hout⟩ := parse_ok_elim m out h
  subst hout
  dsimp only
  constructor
  · exact ⟨_, tc_security m, rfl, by simp⟩
  · cases hb : m.bootloader with
    | none =>
      refine ⟨_, tc_bootloader_none m hb, ?_⟩
      by_cases he : m.appEncrypted = some "true" <;> simp [he]
    | some b0 =>
      refine ⟨_, tc_bootloader_some m b0 hb, ?_⟩
      by_cases he : m.appEncrypted = some "true" <;> simp [he]

/-- C10 witness: a concrete encrypted secure-boot manifest run through the
theorem. -/
theorem claim10_security_invariant_instance :
    parse_flasher_args ⟨some "true", none, [], [], none⟩ =
      .ok ⟨some "true", some ⟨"0x0", "bootloader/bootloader.bin", "true"⟩,
        [("0x0", "bootloader/bootloader.bin")], ["--force", "--encrypt"],
        some ⟨true, true, none⟩⟩ ∧
    ((∃ s, (⟨some "true", some ⟨"0x0", "bootloader/bootloader.bin", "true"⟩,
        [("0x0", "bootloader/bootloader.bin")], ["--force", "--encrypt"],
        some ⟨true, true, none⟩⟩ : Manifest).security = some s ∧
      s.secure_boot = (⟨some "true", none, [], [], none⟩ : Manifest).bootloader.isNone ∧
      (s.encryption = true ↔
        (⟨some "true", none, [], [], none⟩ : Manifest).appEncrypted = some "true")) ∧
    (∃ b, (⟨some "true", some ⟨"0x0", "bootloader/bootloader.bin", "true"⟩,
        [("0x0", "bootloader/bootloader.bin")], ["--force", "--encrypt"],
        some ⟨true, true, none⟩⟩ : Manifest).bootloader = some b ∧
      (b.encrypted = "true" ↔
        (⟨some "true", none, [], [], none⟩ : Manifest).appEncrypted = some "true"))) :=
  ⟨rfl, claim10_security_invariant ⟨some "true", none, [], [], none⟩
    ⟨some "true", some ⟨"0x0", "bootloader/bootloader.bin", "true"⟩,
      [("0x0", "bootloader/bootloader.bin")], ["--force", "--encrypt"],
      some ⟨true, true, none⟩⟩ rfl⟩

/-- C3 counterexample: with keys `0x00` (numeric value 0) present and a
bootloader entry injected at `0x0` (also value 0), the stable sort keeps
the tie in insertion order, so the result is not strictly ascending and
the injected bootloader entry is not first. -/
theorem claim3_counterexample :
    parse_flasher_args ⟨none, none, [("0x00", "app.bin")], ["--force"], none⟩ =
      .ok ⟨none, some ⟨"0x0", "bootloader/bootloader.bin", "false"⟩,
        [("0x00", "app.bin"), ("0x0", "bootloader/bootloader.bin")], ["--force"],
        some ⟨true, false, none⟩⟩ ∧
    (∀ p ∈ ([("0x00", "app.bin")] : List (String × String)), (pyIntHex p.1).isSome = true) ∧
    ¬ ([("0x00", "app.bin"), ("0x0", "bootloader/bootloader.bin")] :
        List (String × String)).Pairwise (fun a b => ffKey a < ffKey b) ∧
    ([("0x00", "app.bin"), ("0x0", "bootloader/bootloader.bin")] :
        List (String × String)).head? ≠ some ("0x0", "bootloader/bootloader.bin") :=
  ⟨rfl, by decide, by decide, by decide⟩

/-- C3 (amended): the returned `flash_files` is ordered by numeric offset
non-decreasingly; it is strictly ascending when the numeric offsets are
pairwise distinct, and when a bootloader entry was injected and every
other entry has a positive numeric offset, the bootloader entry comes
first. -/
theorem claim3_flash_files_sorted (m out : Manifest)
    (h : parse_flasher_args m = .ok out) :
    out.flash_files.Pairwise (fun a b => ffKey a ≤ ffKey b) ∧
    ((out.flash_files.map ffKey).Nodup →
      out.flash_files.Pairwise (fun a b => ffKey a < ffKey b)) ∧
    (m.bootloader = none →
      (∀ p ∈ m.flash_files, 0 < ffKey p ∨ p.1 = "0x0") →
      out.flash_files.head? = some ("0x0", "bootloader/bootloader.bin")) := by
  obtain ⟨ff, hsort, hout⟩ := parse_ok_elim m out h
  subst hout
  dsimp only
  have hsorted := sortFF_ok_sorted _ _ hsort
  refine ⟨hsorted, ?_, ?_⟩
  · intro hnd
    have h2 : ff.Pairwise (fun a b => ffKey a ≠ ffKey b) := List.pairwise_map.mp hnd
    exact (hsorted.and h2).imp (fun hab => lt_of_le_of_ne hab.1 hab.2)
  · intro hb hpos
    have hffs : (transformCore m).flash_files =
        dictSet m.flash_files "0x0" "bootloader/bootloader.bin" := by
      rw [tc_flash_files]
      simp [hb]
    have hperm := sortFF_ok_perm _ _ hsort
    have hmem : ("0x0", "bootloader/bootloader.bin") ∈ ff := by
      apply hperm.mem_iff.2
      rw [hffs]
      exact dictSet_self_mem _ _ _
    have hall : ∀ q ∈ ff, q = ("0x0", "bootloader/bootloader.bin") ∨ 0 < ffKey q := by
      intro q hq
      have hq2 : q ∈ dictSet m.flash_files "0x0" "bootloader/bootloader.bin" := by
        rw [← hffs]
        exact hperm.mem_iff.1 hq
      rcases dictSet_mem_elim _ _ _ q hq2 with h1 | ⟨h2, h3⟩
      · exact Or.inl h1
      · rcases hpos q h2 with h4 | h4
        · exact Or.inr h4
        · exact absurd h4 h3
    have hkey0 : ffKey ("0x0", "bootloader/bootloader.bin") = 0 := by decide
    cases hcs : ff with
    | nil =>
      rw [hcs] at hmem
      simp at hmem
    | cons q qs =>
      rw [hcs] at hsorted hmem
      rcases hall q (hcs ▸ List.mem_cons_self q qs) with h1 | h1
      · simp [h1]
      · exfalso
        rcases List.mem_cons.1 hmem with h2 | h2
        · rw [← h2, hkey0] at h1
          exact lt_irrefl 0 h1
        · have hle := List.rel_of_pairwise_cons hsorted h2
          rw [hkey0] at hle
          exact absurd (lt_of_lt_of_le h1 hle) (lt_irrefl 0)

/-- C3 witness: a concrete secure-boot manifest with one positive offset
run through the theorem. -/
theorem claim3_flash_files_sorted_instance :
    parse_flasher_args ⟨none, none, [("0x10000", "app.bin")], [], none⟩ =
      .ok ⟨none, some ⟨"0x0", "bootloader/bootloader.bin", "false"⟩,
        [("0x0", "bootloader/bootloader.bin"), ("0x10000", "app.bin")], ["--force"],
        some ⟨true, false, none⟩⟩ ∧
    (([("0x0", "bootloader/bootloader.bin"), ("0x10000", "app.bin")] :
        List (String × String)).Pairwise (fun a b => ffKey a ≤ ffKey b) ∧
    ((([("0x0", "bootloader/bootloader.bin"), ("0x10000", "app.bin")] :
        List (String × String)).map ffKey).Nodup →
      ([("0x0", "bootloader/bootloader.bin"), ("0x10000", "app.bin")] :
        List (String × String)).Pairwise (fun a b => ffKey a < ffKey b)) ∧
    ((⟨none, none, [("0x10000", "app.bin")], [], none⟩ : Manifest).bootloader = none →
      (∀ p ∈ (⟨none, none, [("0x10000", "app.bin")], [], none⟩ : Manifest).flash_files,
        0 < ffKey p ∨ p.1 = "0x0") →
      ([("0x0", "bootloader/bootloader.bin"), ("0x10000", "app.bin")] :
        List (String × String)).head? = some ("0x0", "bootloader/bootloader.bin"))) :=
  ⟨rfl, claim3_flash_files_sorted ⟨none, none, [("0x10000", "app.bin")], [], none⟩
    ⟨none, some ⟨"0x0", "bootloader/bootloader.bin", "false"⟩,
      [("0x0", "bootloader/bootloader.bin"), ("0x10000", "app.bin")], ["--force"],
      some ⟨true, false, none⟩⟩ rfl⟩

/-- C4 counterexample: a run whose build directory exists but whose
`flasher_args.json` is missing creates the temporary directory and then
aborts before the final `shutil.rmtree`, leaving the directory behind
(`rmtree` is not in a `try`/`finally`). -/
theorem claim4_counterexample :
    (mainRun ⟨true, none, none, fun _ => false, true, none⟩).tempCreated = true ∧
    (mainRun ⟨true, none, none, fun _ => false, true, none⟩).tempRemoved = false ∧
    (mainRun ⟨true, none, none, fun _ => false, true, none⟩).result =
      .error "flasher_args.json not found" :=
  ⟨rfl, rfl, rfl⟩

/-- C4 (amended): the temporary directory is removed exactly on the runs
that complete successfully; every aborting run skips the final removal. -/
theorem claim4_temp_dir_removed_iff_success (env : Env) :
    (mainRun env).tempRemoved = (mainRun env).result.isOk := by
  unfold mainRun
  split
  · rfl
  · split
    · rfl
    · split
      · rfl
      · split
        · rfl
        · split
          · split
            · rfl
            · rfl
          · rfl

/-- C5 counterexample: a successful run whose flash binary `app.bin` is
listed in the transformed manifest but absent from the build directory
produces a zip without an `app.bin` entry (the source silently skips
missing files). -/
theorem claim5_counterexample :
    mainRun ⟨true, some ⟨none, some ⟨"0x0", "bl.bin", "false"⟩,
        [("0x10000", "app.bin")], [], none⟩, some ⟨"p", "1"⟩,
        fun _ => false, true, none⟩ =
      ⟨.ok ["flasher_args.json", "flash.sh"], true, true⟩ ∧
    "app.bin" ∈ ((⟨none, some ⟨"0x0", "bl.bin", "false"⟩,
        [("0x10000", "app.bin")], [], none⟩ : Manifest).flash_files.map
          (fun p => p.2)) ∧
    "app.bin" ∉ (["flasher_args.json", "flash.sh"] : List String) :=
  ⟨rfl, by decide, by decide⟩

/-- C5 (amended): every zip contains `flasher_args.json` and `flash.sh`,
contains `digest.bin` exactly when `security.secure_boot` is true in the
packaged manifest, and contains an entry for a listed flash file exactly
when that file exists in the build directory (all stated for manifests
whose flash file names avoid the three reserved entry names). -/
theorem claim5_zip_entries (fd : Manifest) (ex : String → Bool)
    (hclean : ∀ p ∈ fd.flash_files,
      ¬ p.2 ∈ (["flasher_args.json", "flash.sh", "digest.bin"] : List String)) :
    "flasher_args.json" ∈ create_zip_package_entries fd ex ∧
    "flash.sh" ∈ create_zip_package_entries fd ex ∧
    ("digest.bin" ∈ create_zip_package_entries fd ex ↔ secureFlag fd = true) ∧
    (∀ p ∈ fd.flash_files,
      (p.2 ∈ create_zip_package_entries fd ex ↔ ex p.2 = true)) := by
  unfold create_zip_package_entries
  refine ⟨by simp, by simp, ?_, ?_⟩
  · by_cases hs : secureFlag fd = true
    · simp [hs]
    · rw [if_neg hs]
      constructor
      · intro hmemd
        exfalso
        rcases List.mem_append.1 hmemd with h1 | h1
        · rcases List.mem_append.1 h1 with h2 | h2
          · simp at h2
          · simp at h2
        · obtain ⟨hmm, _⟩ := List.mem_filter.1 h1
          obtain ⟨p, hp, hpv⟩ := List.mem_map.1 hmm
          exact (hclean p hp) (by rw [hpv]; simp)
      · intro hsec
        exact absurd hsec hs
  · intro p hp
    have hne := hclean p hp
    simp only [List.mem_cons, List.not_mem_nil, or_false, not_or] at hne
    obtain ⟨hne1, hne2, hne3⟩ := hne
    constructor
    · intro hmem
      rcases List.mem_append.1 hmem with h1 | h1
      · exfalso
        rcases List.mem_append.1 h1 with h2 | h2
        · rcases List.mem_cons.1 h2 with h3 | h3
          · exact hne1 h3
          · rcases List.mem_cons.1 h3 with h4 | h4
            · exact hne2 h4
            · simp at h4
        · by_cases hs : secureFlag fd = true
          · rw [if_pos hs] at h2
            rcases List.mem_cons.1 h2 with h3 | h3
            · exact hne3 h3
            · simp at h3
          · rw [if_neg hs] at h2
            simp at h2
      · exact (List.mem_filter.1 h1).2
    · intro hex
      apply List.mem_append.2
      right
      exact List.mem_filter.2 ⟨List.mem_map.2 ⟨p, hp, rfl⟩, hex⟩

/-- C5 witness: a concrete manifest with one existing and one missing
flash file run through the theorem. -/
theorem claim5_zip_entries_instance :
    (∀ p ∈ (⟨none, some ⟨"0x0", "bl.bin", "false"⟩,
        [("0x8000", "pt.bin"), ("0x10000", "app.bin")], [],
        some ⟨false, false, none⟩⟩ : Manifest).flash_files,
      ¬ p.2 ∈ (["flasher_args.json", "flash.sh", "digest.bin"] : List String)) ∧
    ("flasher_args.json" ∈ create_zip_package_entries
      ⟨none, some ⟨"0x0", "bl.bin", "false"⟩,
        [("0x8000", "pt.bin"), ("0x10000", "app.bin")], [],
        some ⟨false, false, none⟩⟩ (fun s => s == "app.bin") ∧
    "flash.sh" ∈ create_zip_package_entries
      ⟨none, some ⟨"0x0", "bl.bin", "false"⟩,
        [("0x8000", "pt.bin"), ("0x10000", "app.bin")], [],
        some ⟨false, false, none⟩⟩ (fun s => s == "app.bin") ∧
    ("digest.bin" ∈ create_zip_package_entries
      ⟨none, some ⟨"0x0", "bl.bin", "false"⟩,
        [("0x8000", "pt.bin"), ("0x10000", "app.bin")], [],
        some ⟨false, false, none⟩⟩ (fun s => s == "app.bin") ↔
      secureFlag ⟨none, some ⟨"0x0", "bl.bin", "false"⟩,
        [("0x8000", "pt.bin"), ("0x10000", "app.bin")], [],
        some ⟨false, false, none⟩⟩ = true) ∧
    (∀ p ∈ (⟨none, some ⟨"0x0", "bl.bin", "false"⟩,
        [("0x8000", "pt.bin"), ("0x10000", "app.bin")], [],
        some ⟨false, false, none⟩⟩ : Manifest).flash_files,
      (p.2 ∈ create_zip_package_entries
        ⟨none, some ⟨"0x0", "bl.bin", "false"⟩,
          [("0x8000", "pt.bin"), ("0x10000", "app.bin")], [],
          some ⟨false, false, none⟩⟩ (fun s => s == "app.bin") ↔
        (fun s => s == "app.bin") p.2 = true))) :=
  ⟨by decide, claim5_zip_entries _ _ (by decide)⟩

theorem append_latest_zip (n : String) : n ++ "_" ++ "latest" ++ ".zip" = n ++ "_latest.zip" := by
  rw [String.append_assoc, String.append_assoc]
  congr 1

/-- C7 counterexample: the version string `"-dirty"` ends in `-dirty`, but
removing the suffix leaves the empty string and the source then falls back
to `"latest"`, so the filename is not built from the stripped version. -/
theorem claim7_counterexample :
    generate_release_filename ⟨"p", "-dirty"⟩ none = "p_latest.zip" ∧
    ("p_latest.zip" : String) ≠ "p_.zip" :=
  ⟨rfl, by decide⟩

/-- C7 (amended): for a version with no surrounding whitespace of the form
`w ++ "-dirty"`, the filename is built from the project name and `w` (only
that one suffix, only at the end, is removed), except that an empty
remainder falls back to `"latest"`. -/
theorem claim7_dirty_suffix (info : ProjectInfo) (w : String)
    (h1 : pyStrip info.project_version = info.project_version)
    (hw : info.project_version = w ++ "-dirty") :
    generate_release_filename info none =
      if w = "" then info.project_name ++ "_latest.zip"
      else info.project_name ++ "_" ++ w ++ ".zip" := by
  unfold generate_release_filename
  rw [h1, hw, stripDirty_append_dirty]
  by_cases hw0 : w = ""
  · subst hw0
    simp [append_latest_zip]
  · simp [hw0]

/-- C7 witness: the version `1.2.3-dirty` run through the theorem. -/
theorem claim7_dirty_suffix_instance :
    pyStrip "1.2.3-dirty" = "1.2.3-dirty" ∧
    ("1.2.3-dirty" : String) = "1.2.3" ++ "-dirty" ∧
    generate_release_filename ⟨"proj", "1.2.3-dirty"⟩ none =
      if ("1.2.3" : String) = "" then "proj" ++ "_latest.zip"
      else "proj" ++ "_" ++ "1.2.3" ++ ".zip" :=
  ⟨by decide, rfl, claim7_dirty_suffix ⟨"proj", "1.2.3-dirty"⟩ "1.2.3" (by decide) rfl⟩

/-- C8: for every nonempty custom name, the filename is the project name,
an underscore, the sanitized name (surrounding whitespace removed, each
maximal internal whitespace run replaced by a single underscore, stated
through the independent words-and-join formulation `specSanitize`) and
`.zip`. -/
theorem claim8_custom_name (info : ProjectInfo) (c : String) (hc : c ≠ "") :
    generate_release_filename info (some c) =
      info.project_name ++ "_" ++ specSanitize c ++ ".zip" := by
  unfold generate_release_filename
  dsimp only
  rw [if_pos hc, pySubWS_pyStrip_eq_specSanitize]

/-- C8 witness: a custom name with spaces run through the theorem. -/
theorem claim8_custom_name_instance :
    ("my rel 2" : String) ≠ "" ∧
    generate_release_filename ⟨"proj", "1.0"⟩ (some "my rel 2") =
      "proj" ++ "_" ++ specSanitize "my rel 2" ++ ".zip" :=
  ⟨by decide, claim8_custom_name ⟨"proj", "1.0"⟩ "my rel 2" (by decide)⟩

/-- C9 counterexample: started at the filesystem root, the `while` loop
never runs (the root is its own dirname) and the current working directory
is returned instead of the starting directory, on a filesystem where every
directory exists. -/
theorem claim9_counterexample :
    find_project_root ⟨fun _ => true, fun _ => false⟩ ["home"] [] = ["home"] ∧
    (["home"] : List String) ≠ ([] : List String) := by
  constructor
  · simp [find_project_root, findRootLoop]
  · simp

/-- C9 (amended): for every starting directory other than the filesystem
root that exists as a directory, `find_project_root` returns the starting
directory itself: the marker string `".git"` is iterated character-wise
and the `"."` test already succeeds there, so the search never ascends. -/
theorem claim9_root_is_start (fs : FSState) (cwd : List String) (h : String)
    (t : List String) (hdir : fs.isDir (h :: t) = true) :
    find_project_root fs cwd (h :: t) = h :: t := by
  have hm : markerFound fs (h :: t) = true := by
    simp [markerFound, hdir]
  simp [find_project_root, findRootLoop, hm]

/-- C9 witness: a concrete one-component directory on a filesystem where
every directory exists. -/
theorem claim9_root_is_start_instance :
    (⟨fun _ => true, fun _ => false⟩ : FSState).isDir ["home"] = true ∧
    find_project_root ⟨fun _ => true, fun _ => false⟩ [] ["home"] = ["home"] :=
  ⟨rfl, claim9_root_is_start ⟨fun _ => true, fun _ => false⟩ [] "home" [] rfl⟩
